import Mathlib

/-!
Verification of the patch-rule core of the Fish-sTool repository.

Strings are modelled as `List Char`.  The JavaScript string operations the
source relies on (`split`, `trim`, `String.prototype.replace` with a global
regex and a string replacement, regex compilation of escaped literals) are
embedded explicitly below, following ECMAScript semantics for the constructs
that actually occur in the source.
-/

/-- Converts a Lean string literal to the `List Char` string model. -/
def strL (s : String) : List Char := s.data

/-- Whitespace recognised by string trimming (space, tab, LF, CR, VT, FF). -/
def isWS (c : Char) : Bool :=
  c == ' ' || c == '\t' || c == '\n' || c == '\r' || c == Char.ofNat 11 || c == Char.ofNat 12

/-- Removes leading whitespace, as the left half of JS `String.prototype.trim`. -/
def trimLeftWS (s : List Char) : List Char := s.dropWhile isWS

/-- Removes trailing whitespace, as the right half of JS `String.prototype.trim`. -/
def trimRightWS : List Char → List Char
  | [] => []
  | c :: rest =>
    match trimRightWS rest with
    | [] => if isWS c then [] else [c]
    | d :: t => c :: d :: t

/-- JS `String.prototype.trim`: removes leading and trailing whitespace. -/
def trim (s : List Char) : List Char := trimRightWS (trimLeftWS s)

/-- JS `String.prototype.split(sep)` for a single-character separator:
`""` splits to `[""]`, and separators delimit (possibly empty) fields. -/
def splitOnChar (sep : Char) : List Char → List (List Char)
  | [] => [[]]
  | c :: rest =>
    if c = sep then [] :: splitOnChar sep rest
    else
      match splitOnChar sep rest with
      | [] => [[c]]
      | h :: t => (c :: h) :: t

/-- The separator characters used by the rule-text format. -/
def eqChar : Char := '='

/-- Newline, the line separator of the raw rule document. -/
def nlChar : Char := '\n'

/-- PatchRule from src/unnamed/part_003 (`types`): a literal find/replace pair. -/
structure PatchRule where
  old : List Char
  newVal : List Char
deriving DecidableEq

/-- One step of the `.map` in `parsePatches` (src/unnamed/part_000 lines 29-32):
the line is split on `=` and destructured into its first two segments, each
trimmed with an empty-string fallback.  JS array destructuring keeps only the
first two segments of the split; any further segments (content after a second
`=`) are discarded. -/
def parseLine (line : List Char) : PatchRule :=
  let segs := splitOnChar eqChar line
  { old := trim (segs.headD []), newVal := trim ((segs.drop 1).headD []) }

/-- The `parsePatches` pipeline of src/unnamed/part_000 lines 25-34 before the
final `.sort`: split into lines, keep lines containing `=`, map `parseLine`,
drop rules with empty `old`. -/
def parseLines (patchStr : List Char) : List PatchRule :=
  (((splitOnChar nlChar patchStr).filter (fun line => line.contains eqChar)).map
    parseLine).filter (fun r => !r.old.isEmpty)

/-- Stable insertion of a rule into a list already sorted by descending
`old.length`: the inserted rule (earlier in original order) goes before the
first element of equal or smaller length. -/
def insertRule (r : PatchRule) : List PatchRule → List PatchRule
  | [] => [r]
  | x :: xs => if x.old.length ≤ r.old.length then r :: x :: xs else x :: insertRule r xs

/-- Stable sort by descending `old.length`, the unique order produced by the
ES2019+ stable `Array.prototype.sort((a, b) => b.old.length - a.old.length)`
of src/unnamed/part_000 line 34. -/
def sortRules : List PatchRule → List PatchRule
  | [] => []
  | x :: xs => insertRule x (sortRules xs)

/-- parsePatches from src/unnamed/part_000 lines 25-35 (identical duplicate in
src/unnamed/part_001 lines 16-26). -/
def parsePatches (patchStr : List Char) : List PatchRule :=
  sortRules (parseLines patchStr)

/-- Backslash. -/
def bslash : Char := '\\'

/-- Dollar sign, the only character special in a JS string replacement. -/
def dollarChar : Char := '$'

/-- Ampersand (for the `$&` replacement pattern). -/
def ampChar : Char := '&'

/-- Backquote (for the JS replacement pattern dollar-backquote). -/
def bquoteChar : Char := Char.ofNat 96

/-- Single quote (for the JS replacement pattern dollar-quote). -/
def squoteChar : Char := Char.ofNat 39

/-- Left brace. -/
def lbraceChar : Char := Char.ofNat 123

/-- Right brace. -/
def rbraceChar : Char := Char.ofNat 125

/-- The character class `[.*+?^$\x7b\x7d()|[\]\\]` of `escapeRegExp`
(src/unnamed/part_000 lines 18-20). -/
def isSpecialChar (c : Char) : Bool :=
  c == '.' || c == '*' || c == '+' || c == '?' || c == '^' || c == dollarChar ||
  c == lbraceChar || c == rbraceChar || c == '(' || c == ')' ||
  c == '|' || c == '[' || c == ']' || c == bslash

/-- escapeRegExp from src/unnamed/part_000 lines 18-20 (duplicate in
src/unnamed/part_001 lines 9-11): a global replace of every special character
by a backslash followed by the matched character. -/
def escapeRegExp : List Char → List Char
  | [] => []
  | c :: rest =>
    if isSpecialChar c then bslash :: c :: escapeRegExp rest
    else c :: escapeRegExp rest

/-- Regex atoms for the pattern fragment of ECMAScript regexes that the escaped
patterns of this program live in: single-character atoms.  `lit c` matches
exactly `c`; `anyChar` is the metacharacter `.` and matches any character. -/
inductive RAtom where
  | lit (c : Char)
  | anyChar
deriving DecidableEq

/-- Compilation of a pattern string into atoms, as the ECMAScript regex engine
reads it, restricted to the constructs reachable from this program: an escaped
special character `\c` is a literal atom, `.` matches any character, any other
unescaped special character is outside the modelled fragment (`none`). -/
def parsePattern : List Char → Option (List RAtom)
  | [] => some []
  | c :: rest =>
    if c = bslash then
      match rest with
      | [] => none
      | d :: rest2 =>
        if isSpecialChar d then (parsePattern rest2).map (fun l => RAtom.lit d :: l)
        else none
    else if c = '.' then (parsePattern rest).map (fun l => RAtom.anyChar :: l)
    else if isSpecialChar c then none
    else (parsePattern rest).map (fun l => RAtom.lit c :: l)

/-- Whether a single atom matches a single character. -/
def atomMatches : RAtom → Char → Bool
  | RAtom.lit c, x => x == c
  | RAtom.anyChar, _ => true

/-- Whether the atom list matches at the start of the string (the string may be
longer than the pattern). -/
def atomsMatchHere : List RAtom → List Char → Bool
  | [], _ => true
  | _ :: _, [] => false
  | a :: as, c :: cs => atomMatches a c && atomsMatchHere as cs

/-- Whether the atom list matches the whole string exactly. -/
def regexFullMatch : List RAtom → List Char → Bool
  | [], [] => true
  | [], _ :: _ => false
  | _ :: _, [] => false
  | a :: as, c :: cs => atomMatches a c && regexFullMatch as cs

/-- ECMAScript GetSubstitution for a regex with no capture groups: in the
replacement string, `$$` yields `$`, `$&` yields the matched text,
dollar-backquote yields the part of the subject before the match,
dollar-quote yields the part after it, and every other `$` sequence
(including `$1` when there is no such group) stays literal. -/
def expandRepl (matched before after : List Char) : List Char → List Char
  | [] => []
  | [c] => [c]
  | c :: d :: rest =>
    if c = dollarChar then
      if d = dollarChar then dollarChar :: expandRepl matched before after rest
      else if d = ampChar then matched ++ expandRepl matched before after rest
      else if d = bquoteChar then before ++ expandRepl matched before after rest
      else if d = squoteChar then after ++ expandRepl matched before after rest
      else dollarChar :: expandRepl matched before after (d :: rest)
    else c :: expandRepl matched before after (d :: rest)

/-- Scanning core of JS `replace` with a global regex whose pattern is the
non-empty atom list `a :: ps` and whose replacement string is `repl`:
left-to-right, non-overlapping; `pre` holds the already-scanned part of the
original subject (reversed) and `skip` counts characters of the current match
still to be consumed without rescanning. -/
def replaceScan (a : RAtom) (ps : List RAtom) (repl : List Char)
    (pre : List Char) (skip : Nat) : List Char → List Char
  | [] => []
  | c :: rest =>
    match skip with
    | Nat.succ k => replaceScan a ps repl (c :: pre) k rest
    | 0 =>
      if atomsMatchHere (a :: ps) (c :: rest) then
        expandRepl ((c :: rest).take (ps.length + 1)) pre.reverse
            ((c :: rest).drop (ps.length + 1)) repl
          ++ replaceScan a ps repl (c :: pre) ps.length rest
      else
        c :: replaceScan a ps repl (c :: pre) 0 rest

/-- JS `replace` with a global regex whose pattern is empty (only reachable
from a rule with empty `old`): the empty match occurs at every position,
including the end of the string. -/
def replaceEmptyAux (repl : List Char) (pre : List Char) : List Char → List Char
  | [] => expandRepl [] pre.reverse [] repl
  | c :: rest => expandRepl [] pre.reverse (c :: rest) repl ++ c :: replaceEmptyAux repl (c :: pre) rest

/-- JS `s.replace(regex, repl)` for a global regex compiled to the atom list
`pat`, with replacement-string expansion. -/
def jsRegexReplace (s : List Char) (pat : List RAtom) (repl : List Char) : List Char :=
  match pat with
  | [] => replaceEmptyAux repl [] s
  | a :: ps => replaceScan a ps repl [] 0 s

/-- applyCustomPatches from src/unnamed/part_000 lines 40-48 (duplicate in
src/unnamed/part_001 lines 31-39): for each rule in order,
`result = result.replace(new RegExp(escapeRegExp(rule.old), 'g'), rule.newVal)`. -/
def applyCustomPatches (text : List Char) (patchRules : List PatchRule) : List Char :=
  patchRules.foldl (fun result rule =>
    match parsePattern (escapeRegExp rule.old) with
    | some pat => jsRegexReplace result pat rule.newVal
    | none => result) text

/-- Decidable contiguous-substring check: whether `needle` occurs in the
string. -/
def isSubstr (needle : List Char) : List Char → Bool
  | [] => needle.isEmpty
  | c :: rest => needle.isPrefixOf (c :: rest) || isSubstr needle rest

/-- ConversionType from src/unnamed/part_003 (`types`). -/
inductive ConversionType where
  | TO_SIMPLIFIED
  | TO_TRADITIONAL
deriving DecidableEq

/-- The external OpenCC engine global: `OpenCC.Converter({from, to})` returns a
text-to-text converter.  Modelled as an abstract total function from the two
register names and the input text to the output text. -/
structure OpenCCEngine where
  Converter : List Char → List Char → List Char → List Char

/-- Observable outcome of one `convertText` call: `output = none` means the
call failed (the promise rejected with a thrown error), `some t` means it
resolved with `t`; `warned` records whether `console.warn` was invoked. -/
structure ConvertResult where
  output : Option (List Char)
  warned : Bool
deriving DecidableEq

/-- convertText from src/unnamed/part_000 lines 53-69: an empty text
short-circuits to the empty result; then the OpenCC global is looked up at
call time; if absent, warn and return the input text unchanged; otherwise
convert with from/to picked by direction. -/
def convertText (engine : Option OpenCCEngine) (text : List Char)
    (ty : ConversionType) : ConvertResult :=
  if text.isEmpty then ⟨some [], false⟩
  else
    match engine with
    | none => ⟨some text, true⟩
    | some occ =>
      let src := if ty = ConversionType.TO_SIMPLIFIED then strL "tw" else strL "cn"
      let tgt := if ty = ConversionType.TO_SIMPLIFIED then strL "cn" else strL "tw"
      ⟨some (occ.Converter src tgt text), false⟩

/-- convertText from the duplicate module src/unnamed/part_001 lines 44-56:
the same empty-text guard, but no check of the OpenCC global
(`declare const OpenCC`), so when the global is absent the reference
`OpenCC.Converter` throws and the call fails instead of degrading. -/
def convertTextDup (engine : Option OpenCCEngine) (text : List Char)
    (ty : ConversionType) : ConvertResult :=
  if text.isEmpty then ⟨some [], false⟩
  else
    match engine with
    | none => ⟨none, false⟩
    | some occ =>
      let src := if ty = ConversionType.TO_SIMPLIFIED then strL "tw" else strL "cn"
      let tgt := if ty = ConversionType.TO_SIMPLIFIED then strL "cn" else strL "tw"
      ⟨some (occ.Converter src tgt text), false⟩

/-- JavaScript values as far as the cloud-sync code can observe them: the
possible results of `JSON.parse` plus `undefined`. -/
inductive JSValue where
  | undef
  | nullV
  | boolV (b : Bool)
  | numV (n : Int)
  | str (s : List Char)
  | obj (fields : List (List Char × JSValue))

/-- First-match field lookup in an object (JSON.parse output has unique keys). -/
def lookupField : List (List Char × JSValue) → List Char → Option JSValue
  | [], _ => none
  | (k, v) :: rest, key => if k = key then some v else lookupField rest key

/-- The key `"patches"` read by `syncFromCloud`. -/
def patchesKey : List Char := strL "patches"

/-- JS property access `data.patches`: throws (`none`) on `null`/`undefined`,
yields the field or `undefined` on an object, `undefined` on any other
primitive. -/
def getPatchesProp : JSValue → Option JSValue
  | JSValue.undef => none
  | JSValue.nullV => none
  | JSValue.obj fields => some ((lookupField fields patchesKey).getD JSValue.undef)
  | _ => some JSValue.undef

/-- JS truthiness of a value, as tested by `data.patches || text`. -/
def truthy : JSValue → Bool
  | JSValue.undef => false
  | JSValue.nullV => false
  | JSValue.boolV b => b
  | JSValue.numV n => n != 0
  | JSValue.str s => !s.isEmpty
  | JSValue.obj _ => true

/-- The body-normalization step of syncFromCloud (src/App.tsx lines 50-56):
`let finalPatches = text; try { const data = JSON.parse(text);
finalPatches = data.patches || text; } catch { finalPatches = text; }`.
`parsed` is the outcome of the external `JSON.parse` call (`none` = it threw). -/
def syncNormalize (parsed : Option JSValue) (text : List Char) : JSValue :=
  match parsed with
  | none => JSValue.str text
  | some data =>
    match getPatchesProp data with
    | none => JSValue.str text
    | some pv => if truthy pv then pv else JSValue.str text

/-- Outcome of the external `fetch` call in syncFromCloud: the request threw,
or it produced a response with an `ok` flag and a text body. -/
inductive FetchOutcome where
  | fetchError
  | response (ok : Bool) (body : List Char)

/-- The toast kinds used by the App component. -/
inductive ToastKind where
  | info
  | success
  | error
deriving DecidableEq

/-- syncFromCloud from src/App.tsx lines 38-63, as a transition on the stored
patch text `st`: no URL configured is an info no-op; a thrown fetch or a
non-ok response is caught and reported as an error toast with the state
unchanged; on success the normalized body replaces the state.  `silent`
suppresses all toasts; `parsed` models the external `JSON.parse`. -/
def syncFromCloud (st : JSValue) (url : Option (List Char)) (silent : Bool)
    (outcome : FetchOutcome) (parsed : List Char → Option JSValue) :
    JSValue × Option ToastKind :=
  match url with
  | none => (st, if silent then none else some ToastKind.info)
  | some _ =>
    match outcome with
    | FetchOutcome.fetchError => (st, if silent then none else some ToastKind.error)
    | FetchOutcome.response ok body =>
      if ok then
        (syncNormalize (parsed body) body, if silent then none else some ToastKind.success)
      else
        (st, if silent then none else some ToastKind.error)

/-! Lemmas about trimming. -/

/-- Left-trimming is idempotent. -/
theorem dropWhile_isWS_idem (s : List Char) :
    (s.dropWhile isWS).dropWhile isWS = s.dropWhile isWS := by
  induction s with
  | nil => rfl
  | cons c rest ih =>
    by_cases h : isWS c
    · simp [List.dropWhile_cons, h, ih]
    · simp [List.dropWhile_cons, h]

/-- Right-trimming is idempotent. -/
theorem trimRightWS_idem (s : List Char) : trimRightWS (trimRightWS s) = trimRightWS s := by
  induction s with
  | nil => rfl
  | cons c rest ih =>
    cases h : trimRightWS rest with
    | nil =>
      by_cases hc : isWS c
      · simp [trimRightWS, h, hc]
      · simp [trimRightWS, h, hc]
    | cons d t =>
      rw [h] at ih
      have h1 : trimRightWS (c :: rest) = c :: d :: t := by
        rw [trimRightWS, h]
      rw [h1, trimRightWS, ih]

/-- Right-trimming a left-trimmed string keeps it left-trimmed. -/
theorem trimLeftWS_trimRightWS (s : List Char) (h : trimLeftWS s = s) :
    trimLeftWS (trimRightWS s) = trimRightWS s := by
  cases s with
  | nil => rfl
  | cons c rest =>
    have hc : isWS c = false := by
      by_contra hws
      simp only [Bool.not_eq_false] at hws
      have h1 : trimLeftWS (c :: rest) = trimLeftWS rest := by
        simp [trimLeftWS, List.dropWhile_cons, hws]
      rw [h1] at h
      have hle : (List.dropWhile isWS rest).length ≤ rest.length :=
        (List.dropWhile_suffix isWS).length_le
      have h2 : (trimLeftWS rest).length = (c :: rest).length := by rw [h]
      simp only [trimLeftWS, List.length_cons] at h2
      omega
    cases ht : trimRightWS rest with
    | nil =>
      simp [trimRightWS, ht, hc, trimLeftWS, List.dropWhile_cons]
    | cons d t =>
      simp [trimRightWS, ht, trimLeftWS, List.dropWhile_cons, hc]

/-- Trimming is idempotent: the parsed rule fields are already trimmed. -/
theorem trim_trim (s : List Char) : trim (trim s) = trim s := by
  unfold trim
  rw [trimLeftWS_trimRightWS (trimLeftWS s) (dropWhile_isWS_idem s), trimRightWS_idem]

/-! Lemmas about splitting. -/

/-- Splitting never produces an empty field list. -/
theorem splitOnChar_ne_nil (sep : Char) (l : List Char) : splitOnChar sep l ≠ [] := by
  induction l with
  | nil => simp [splitOnChar]
  | cons c rest ih =>
    by_cases h : c = sep
    · simp [splitOnChar, h]
    · cases hr : splitOnChar sep rest with
      | nil => exact absurd hr ih
      | cons a b => simp [splitOnChar, h, hr]

/-- A string without the separator splits into the single field it is. -/
theorem splitOnChar_not_mem (sep : Char) (l : List Char) (h : sep ∉ l) :
    splitOnChar sep l = [l] := by
  induction l with
  | nil => rfl
  | cons c rest ih =>
    have hc : ¬c = sep := fun he => h (he ▸ List.mem_cons_self c rest)
    have hr : sep ∉ rest := fun hm => h (List.mem_cons_of_mem c hm)
    simp [splitOnChar, hc, ih hr]

/-- The first field of a split ends at the first separator occurrence. -/
theorem splitOnChar_append_cons (sep : Char) (a rest : List Char) (h : sep ∉ a) :
    splitOnChar sep (a ++ sep :: rest) = a :: splitOnChar sep rest := by
  induction a with
  | nil => simp [splitOnChar]
  | cons c a' ih =>
    have hc : ¬c = sep := fun he => h (he ▸ List.mem_cons_self c a')
    have ha : sep ∉ a' := fun hm => h (List.mem_cons_of_mem c hm)
    simp only [List.cons_append, splitOnChar, if_neg hc, List.append_eq]
    rw [ih ha]

/-- The first field of a split is the longest separator-free leading segment. -/
theorem splitOnChar_headD (sep : Char) (l : List Char) :
    (splitOnChar sep l).headD [] = l.takeWhile (fun c => !(c == sep)) := by
  induction l with
  | nil => rfl
  | cons c rest ih =>
    by_cases h : c = sep
    · simp [splitOnChar, h, List.takeWhile_cons]
    · cases hr : splitOnChar sep rest with
      | nil => exact absurd hr (splitOnChar_ne_nil sep rest)
      | cons x y =>
        rw [hr] at ih
        simp only [List.headD_cons] at ih
        simp [splitOnChar, h, hr, List.takeWhile_cons, ih]

/-! Lemmas about the stable descending-length sort. -/

/-- Membership in an insertion. -/
theorem mem_insertRule (r a : PatchRule) (l : List PatchRule) :
    a ∈ insertRule r l ↔ a = r ∨ a ∈ l := by
  induction l with
  | nil => simp [insertRule]
  | cons x xs ih =>
    by_cases h : x.old.length ≤ r.old.length
    · simp [insertRule, h]
    · simp [insertRule, h, ih]
      tauto

/-- Sorting permutes membership only. -/
theorem mem_sortRules (a : PatchRule) (l : List PatchRule) :
    a ∈ sortRules l ↔ a ∈ l := by
  induction l with
  | nil => simp [sortRules]
  | cons x xs ih => simp [sortRules, mem_insertRule, ih]

/-- Insertion preserves the descending-length invariant. -/
theorem pairwise_insertRule (r : PatchRule) (l : List PatchRule)
    (h : l.Pairwise (fun a b => b.old.length ≤ a.old.length)) :
    (insertRule r l).Pairwise (fun a b => b.old.length ≤ a.old.length) := by
  induction l with
  | nil => simp [insertRule]
  | cons x xs ih =>
    rcases List.pairwise_cons.mp h with ⟨hx, hxs⟩
    by_cases hle : x.old.length ≤ r.old.length
    · rw [insertRule, if_pos hle]
      refine List.pairwise_cons.mpr ⟨?_, h⟩
      intro b hb
      rcases List.mem_cons.mp hb with hb | hb
      · subst hb; omega
      · have := hx b hb
        omega
    · rw [insertRule, if_neg hle]
      refine List.pairwise_cons.mpr ⟨?_, ih hxs⟩
      intro b hb
      rcases (mem_insertRule r b xs).mp hb with hb | hb
      · subst hb; omega
      · exact hx b hb

/-- The sorted rule list is in descending length order. -/
theorem pairwise_sortRules (l : List PatchRule) :
    (sortRules l).Pairwise (fun a b => b.old.length ≤ a.old.length) := by
  induction l with
  | nil => simp [sortRules]
  | cons x xs ih => exact pairwise_insertRule x (sortRules xs) ih

/-- Inserting keeps each equal-length class in original relative order. -/
theorem filter_insertRule (L : Nat) (r : PatchRule) (l : List PatchRule) :
    (insertRule r l).filter (fun x => x.old.length == L) =
      if r.old.length = L then r :: l.filter (fun x => x.old.length == L)
      else l.filter (fun x => x.old.length == L) := by
  induction l with
  | nil =>
    by_cases hr : r.old.length = L
    · simp [insertRule, List.filter_cons, hr]
    · simp [insertRule, List.filter_cons, hr]
  | cons x xs ih =>
    by_cases hle : x.old.length ≤ r.old.length
    · rw [insertRule, if_pos hle]
      by_cases hr : r.old.length = L
      · simp [List.filter_cons, hr]
      · simp [List.filter_cons, hr]
    · rw [insertRule, if_neg hle]
      by_cases hr : r.old.length = L
      · have hx : x.old.length ≠ L := by omega
        simp [List.filter_cons, hx, hr, ih]
      · by_cases hx : x.old.length = L
        · simp [List.filter_cons, hx, hr, ih]
        · simp [List.filter_cons, hx, hr, ih]

/-- Stability: the sort leaves each equal-length class exactly as it appeared. -/
theorem filter_sortRules (L : Nat) (l : List PatchRule) :
    (sortRules l).filter (fun x => x.old.length == L) =
      l.filter (fun x => x.old.length == L) := by
  induction l with
  | nil => rfl
  | cons x xs ih =>
    rw [sortRules, filter_insertRule]
    by_cases hx : x.old.length = L
    · simp [List.filter_cons, hx, ih]
    · simp [List.filter_cons, hx, ih]

/-- Every rule produced by the pre-sort pipeline has trimmed fields and a
non-empty `old`. -/
theorem parseLines_mem (s : List Char) (r : PatchRule) (h : r ∈ parseLines s) :
    trim r.old = r.old ∧ trim r.newVal = r.newVal ∧ r.old ≠ [] := by
  rw [parseLines] at h
  rcases List.mem_filter.mp h with ⟨hmap, hne⟩
  rcases List.mem_map.mp hmap with ⟨line, _, hline⟩
  refine ⟨?_, ?_, ?_⟩
  · rw [← hline]
    exact trim_trim _
  · rw [← hline]
    exact trim_trim _
  · intro he
    rw [he] at hne
    simp at hne

/-! Lemmas about escaped patterns and replacement. -/

/-- Escaping compiles to exactly the literal atoms of the input string. -/
theorem parsePattern_escapeRegExp (s : List Char) :
    parsePattern (escapeRegExp s) = some (s.map RAtom.lit) := by
  induction s with
  | nil => rfl
  | cons c rest ih =>
    by_cases h : isSpecialChar c = true
    · simp only [escapeRegExp, h, if_pos]
      rw [parsePattern.eq_def]
      simp [h, ih]
    · have hcb : ¬c = bslash := by
        intro he
        rw [he] at h
        exact h (by decide)
      have hcd : ¬c = '.' := by
        intro he
        rw [he] at h
        exact h (by decide)
      simp only [escapeRegExp, h, if_neg, Bool.false_eq_true]
      rw [parsePattern.eq_def]
      simp [hcb, hcd, h, ih]

/-- A literal atom list fully matches exactly the string it was built from. -/
theorem regexFullMatch_lit (s t : List Char) :
    regexFullMatch (s.map RAtom.lit) t = true ↔ t = s := by
  induction s generalizing t with
  | nil =>
    cases t with
    | nil => simp [regexFullMatch]
    | cons c cs => simp [regexFullMatch]
  | cons c cs ih =>
    cases t with
    | nil => simp [regexFullMatch]
    | cons d ds =>
      simp only [List.map_cons, regexFullMatch, atomMatches, Bool.and_eq_true, beq_iff_eq,
        ih, List.cons.injEq]

/-- A literal atom list matches at the front of a string exactly when the
source string leads it. -/
theorem atomsMatchHere_lit (s t : List Char) :
    atomsMatchHere (s.map RAtom.lit) t = s.isPrefixOf t := by
  induction s generalizing t with
  | nil => simp [atomsMatchHere, List.isPrefixOf]
  | cons c cs ih =>
    cases t with
    | nil => simp [atomsMatchHere, List.isPrefixOf]
    | cons d ds =>
      simp only [List.map_cons, atomsMatchHere, atomMatches, List.isPrefixOf, ih]
      by_cases h : d = c
      · subst h
        rfl
      · have h2 : ¬c = d := fun he => h he.symm
        rw [beq_eq_false_iff_ne.mpr h, beq_eq_false_iff_ne.mpr h2]

/-- A global replace whose literal pattern occurs nowhere in the subject is the
identity. -/
theorem replaceScan_no_occurrence (o : Char) (os repl pre s : List Char)
    (h : isSubstr (o :: os) s = false) :
    replaceScan (RAtom.lit o) (os.map RAtom.lit) repl pre 0 s = s := by
  induction s generalizing pre with
  | nil => rfl
  | cons c rest ih =>
    rw [isSubstr, Bool.or_eq_false_iff] at h
    have hm : atomsMatchHere (RAtom.lit o :: os.map RAtom.lit) (c :: rest) = false := by
      have : atomsMatchHere ((o :: os).map RAtom.lit) (c :: rest) = false := by
        rw [atomsMatchHere_lit]
        exact h.1
      simpa using this
    rw [replaceScan, hm]
    simp only [Bool.false_eq_true, if_false]
    rw [ih (c :: pre) h.2]

/-- Applying a rule list to a string in which no rule's `old` occurs leaves the
string unchanged. -/
theorem applyCustomPatches_fixed (s : List Char) (rules : List PatchRule)
    (h : ∀ r ∈ rules, isSubstr r.old s = false) :
    applyCustomPatches s rules = s := by
  induction rules with
  | nil => rfl
  | cons r rs ih =>
    have hr : isSubstr r.old s = false := h r (List.mem_cons_self r rs)
    have hrs : ∀ x ∈ rs, isSubstr x.old s = false := fun x hx =>
      h x (List.mem_cons_of_mem r hx)
    cases hold : r.old with
    | nil =>
      exfalso
      rw [hold] at hr
      cases s with
      | nil => simp [isSubstr] at hr
      | cons c rest => simp [isSubstr, List.isPrefixOf] at hr
    | cons o os =>
      have hstep :
          (match parsePattern (escapeRegExp r.old) with
            | some pat => jsRegexReplace s pat r.newVal
            | none => s) = s := by
        rw [parsePattern_escapeRegExp, hold]
        simp only [List.map_cons]
        rw [jsRegexReplace]
        exact replaceScan_no_occurrence o os r.newVal [] s (hold ▸ hr)
      rw [applyCustomPatches] at ih ⊢
      simp only [List.foldl_cons]
      rw [hstep]
      exact ih hrs

/-- The replacement string of the doubling rule contains no dollar sequence, so
it expands to itself. -/
theorem expandRepl_aa (m b a : List Char) :
    expandRepl m b a (strL "aa") = strL "aa" := by
  show expandRepl m b a ['a', 'a'] = ['a', 'a']
  rw [expandRepl, if_neg (by decide : ¬('a' = dollarChar))]
  rfl

/-- One global pass of the self-referencing rule a to aa: the output length is
the input length plus the number of occurrences, with no rescanning of
inserted text. -/
theorem replaceScan_double_len (s pre : List Char) :
    (replaceScan (RAtom.lit 'a') [] (strL "aa") pre 0 s).length =
      s.length + s.count 'a' := by
  induction s generalizing pre with
  | nil => rfl
  | cons c rest ih =>
    by_cases h : c = 'a'
    · subst h
      have hm : atomsMatchHere [RAtom.lit 'a'] ('a' :: rest) = true := by
        simp [atomsMatchHere, atomMatches]
      rw [replaceScan, hm]
      simp only [if_true, List.take, List.drop]
      rw [expandRepl_aa, List.length_append]
      simp only [List.length_nil]
      rw [ih ('a' :: pre)]
      have h2 : (strL "aa").length = 2 := rfl
      have h3 : List.count 'a' ('a' :: rest) = List.count 'a' rest + 1 := by
        simp [List.count_cons]
      simp only [h2, h3, List.length_cons]
      omega
    · have hm : atomsMatchHere [RAtom.lit 'a'] (c :: rest) = false := by
        simp [atomsMatchHere, atomMatches, h]
      rw [replaceScan, hm]
      simp only [Bool.false_eq_true, if_false, List.length_cons]
      rw [ih (c :: pre)]
      have : (c :: rest).count 'a' = rest.count 'a' := by
        simp [List.count_cons, h]
      omega

/-- Parsing a single line whose first separator splits it as `a` then `rest`:
`old` is the trimmed part before the first separator, `newVal` the trimmed
part between the first and second separators. -/
theorem parseLine_first_eq (a rest : List Char) (h : eqChar ∉ a) :
    parseLine (a ++ eqChar :: rest) =
      ⟨trim a, trim (rest.takeWhile (fun c => !(c == eqChar)))⟩ := by
  rw [parseLine]
  simp only [splitOnChar_append_cons eqChar a rest h]
  simp only [List.headD_cons, List.drop_succ_cons, List.drop_zero]
  rw [splitOnChar_headD]

/-- The pre-sort pipeline on a one-line input containing a separator. -/
theorem parseLines_single (a rest : List Char)
    (ha : eqChar ∉ a) (hna : nlChar ∉ a) (hnr : nlChar ∉ rest) :
    parseLines (a ++ eqChar :: rest) =
      if trim a = [] then []
      else [⟨trim a, trim (rest.takeWhile (fun c => !(c == eqChar)))⟩] := by
  have hnl : nlChar ∉ (a ++ eqChar :: rest) := by
    intro hm
    rcases List.mem_append.mp hm with hm | hm
    · exact hna hm
    · rcases List.mem_cons.mp hm with hm | hm
      · exact absurd hm (by decide)
      · exact hnr hm
  rw [parseLines, splitOnChar_not_mem nlChar _ hnl]
  have hcont : (a ++ eqChar :: rest).contains eqChar = true := by
    simp [List.contains, List.elem_iff]
  rw [List.filter_cons]
  simp only [hcont, if_true, List.filter_nil, List.map_cons, List.map_nil]
  rw [parseLine_first_eq a rest ha]
  by_cases he : trim a = []
  · simp [List.filter_cons, he]
  · simp [List.filter_cons, he]

/-! Claim theorems. -/

/-- C1: the claim states that `newVal` is inserted as literal text, never
interpreted as a replacement template, also when it contains a dollar sign.
The code passes `newVal` as the replacement string of a JS `replace` call,
which expands dollar sequences: with the single rule old `a`, newVal the four
characters dollar-amp-dollar-amp, applied to the text `a`, the code produces
`aa` (each dollar-amp expands to the matched text), not the literal newVal. -/
theorem c1_newVal_dollar_sequences_expanded :
    applyCustomPatches (strL "a") [⟨strL "a", strL "$&$&"⟩] = strL "aa" ∧
    strL "aa" ≠ strL "$&$&" :=
  ⟨by decide, by decide⟩

/-- C2 counterexample: the claim says the line `a=b=c` yields the rule with
newVal `b=c`; the code destructures the full split, keeping only the first
two segments, so it yields newVal `b`. -/
theorem c2_multi_eq_line_counterexample :
    parsePatches (strL "a=b=c") = [⟨strL "a", strL "b"⟩] ∧
    parsePatches (strL "a=b=c") ≠ [⟨strL "a", strL "b=c"⟩] :=
  ⟨by decide, by decide⟩

/-- C2 amended: for a line `a` separator `rest` whose part before the first
separator is `a`, parsing yields old = trim of `a` and newVal = trim of the
segment of `rest` up to the next separator; content after a second separator
is discarded (when the trimmed `a` is empty the line is dropped). -/
theorem c2_split_keeps_first_two_segments (a rest : List Char)
    (ha : eqChar ∉ a) (hna : nlChar ∉ a) (hnr : nlChar ∉ rest) :
    parsePatches (a ++ eqChar :: rest) =
      if trim a = [] then []
      else [⟨trim a, trim (rest.takeWhile (fun c => !(c == eqChar)))⟩] := by
  rw [parsePatches, parseLines_single a rest ha hna hnr]
  by_cases he : trim a = []
  · simp [he, sortRules]
  · simp [he, sortRules, insertRule]

/-- C2 witness: the amended statement evaluated on the line `a=b=c`. -/
theorem c2_split_witness :
    parsePatches (strL "a" ++ eqChar :: strL "b=c") = [⟨strL "a", strL "b"⟩] := by
  rw [c2_split_keeps_first_two_segments (strL "a") (strL "b=c")
    (by decide) (by decide) (by decide)]
  decide

/-- C3: for every raw rule text, the parse output is sorted by descending
length of old; each class of equal-length old values appears in exactly the
order the pre-sort pipeline produced it from the input lines (stability); and
every output rule has trimmed old and newVal and a non-empty old. -/
theorem c3_sorted_stable_trimmed (patchStr : List Char) :
    (parsePatches patchStr).Pairwise (fun a b => b.old.length ≤ a.old.length) ∧
    (∀ L, (parsePatches patchStr).filter (fun r => r.old.length == L) =
      (parseLines patchStr).filter (fun r => r.old.length == L)) ∧
    ∀ r ∈ parsePatches patchStr, trim r.old = r.old ∧ trim r.newVal = r.newVal ∧ r.old ≠ [] :=
  ⟨pairwise_sortRules _, fun L => filter_sortRules L _,
    fun r hr => parseLines_mem patchStr r ((mem_sortRules r _).mp hr)⟩

/-- C3 witness: the trimmed-fields clause evaluated on the rule parsed from
the input `a=x`. -/
theorem c3_sorted_stable_trimmed_witness :
    trim (strL "a") = strL "a" ∧ trim (strL "x") = strL "x" ∧ strL "a" ≠ [] :=
  (c3_sorted_stable_trimmed (strL "a=x")).2.2 ⟨strL "a", strL "x"⟩ (by decide)

/-- C4: rules are applied sequentially over the previous result, so the rule
list old `AB` to `BA` then old `BA` to `CC` maps the text `AB` to `CC`; and
the empty rule list is the identity on every text. -/
theorem c4_sequential_rules_empty_identity :
    (∀ text, applyCustomPatches text [] = text) ∧
    applyCustomPatches (strL "AB") [⟨strL "AB", strL "BA"⟩, ⟨strL "BA", strL "CC"⟩] =
      strL "CC" :=
  ⟨fun _ => rfl, by decide⟩

/-- C5: for every string s, the escaped form of s compiles in the pattern
engine to the sequence of literal atoms of s, and that pattern matches a
string exactly when it equals s; in particular the escaped form of `a.b*c`
matches the literal `a.b*c` and does not match `aXbYc`. -/
theorem c5_escaped_pattern_matches_exactly :
    (∀ s, parsePattern (escapeRegExp s) = some (s.map RAtom.lit)) ∧
    (∀ s t, regexFullMatch (s.map RAtom.lit) t = true ↔ t = s) ∧
    regexFullMatch ((strL "a.b*c").map RAtom.lit) (strL "a.b*c") = true ∧
    regexFullMatch ((strL "a.b*c").map RAtom.lit) (strL "aXbYc") = false :=
  ⟨parsePattern_escapeRegExp, regexFullMatch_lit, by decide, by decide⟩

/-- C6 counterexample: the claim extends the degrade-to-no-op behaviour to
both duplicate utility modules, but the conversion function of the second
module does not check the engine global: with the engine absent and the text
`abc` its call fails (the reference throws) instead of returning `abc`. -/
theorem c6_duplicate_module_counterexample :
    (convertTextDup none (strL "abc") ConversionType.TO_SIMPLIFIED).output = none ∧
    (convertTextDup none (strL "abc") ConversionType.TO_SIMPLIFIED).output ≠
      some (strL "abc") :=
  ⟨by decide, by decide⟩

/-- C6 amended: in the guarded utility module (the one the app imports), for
every non-empty text and direction, an absent engine makes convertText warn
and return the input text unchanged, without failing. -/
theorem c6_guarded_module_degrades (text : List Char) (ty : ConversionType)
    (h : text ≠ []) :
    convertText none text ty = ⟨some text, true⟩ := by
  cases text with
  | nil => exact absurd rfl h
  | cons c t => rfl

/-- C6 witness: the guarded module on the text `abc` with the engine absent. -/
theorem c6_guarded_module_witness :
    convertText none (strL "abc") ConversionType.TO_SIMPLIFIED =
      ⟨some (strL "abc"), true⟩ :=
  c6_guarded_module_degrades (strL "abc") ConversionType.TO_SIMPLIFIED (by decide)

/-- C7 counterexample: the claim says a present patches field is used even
when its value is the empty string; the code tests the field with JS
truthiness, and the empty string is falsy, so the raw body is used instead. -/
theorem c7_empty_patches_field_counterexample :
    syncNormalize (some (JSValue.obj [(patchesKey, JSValue.str [])]))
        (strL "\x7b\"patches\":\"\"\x7d") =
      JSValue.str (strL "\x7b\"patches\":\"\"\x7d") ∧
    JSValue.str (strL "\x7b\"patches\":\"\"\x7d") ≠ JSValue.str [] := by
  refine ⟨rfl, ?_⟩
  intro h
  injection h with h2
  exact absurd h2 (by decide)

/-- C7 amended: when the body fails to parse the raw body is used; when it
parses to an object, a present patches field is used exactly when its value
is truthy (for strings: non-empty), and otherwise (falsy value or absent
field) the raw body is used; the two example bodies of the claim behave as
stated. -/
theorem c7_patches_field_normalization :
    (∀ text, syncNormalize none text = JSValue.str text) ∧
    (∀ text fields v, lookupField fields patchesKey = some v → truthy v = true →
      syncNormalize (some (JSValue.obj fields)) text = v) ∧
    (∀ text fields v, lookupField fields patchesKey = some v → truthy v = false →
      syncNormalize (some (JSValue.obj fields)) text = JSValue.str text) ∧
    (∀ text fields, lookupField fields patchesKey = none →
      syncNormalize (some (JSValue.obj fields)) text = JSValue.str text) ∧
    syncNormalize (some (JSValue.obj [(patchesKey, JSValue.str (strL "x=y"))]))
      (strL "\x7b\"patches\":\"x=y\"\x7d") = JSValue.str (strL "x=y") ∧
    syncNormalize none (strL "x=y") = JSValue.str (strL "x=y") := by
  refine ⟨fun text => rfl, ?_, ?_, ?_, rfl, rfl⟩
  · intro text fields v h ht
    simp [syncNormalize, getPatchesProp, h, ht]
  · intro text fields v h ht
    simp [syncNormalize, getPatchesProp, h, ht]
  · intro text fields h
    simp [syncNormalize, getPatchesProp, h, truthy]

/-- C7 witness: the truthy-field clause evaluated on a concrete object. -/
theorem c7_patches_field_witness :
    syncNormalize (some (JSValue.obj [(patchesKey, JSValue.str (strL "zz"))])) (strL "q") =
      JSValue.str (strL "zz") :=
  c7_patches_field_normalization.2.1 (strL "q")
    [(patchesKey, JSValue.str (strL "zz"))] (JSValue.str (strL "zz")) rfl rfl

/-- C8: for a thrown fetch and for a non-ok response alike, syncFromCloud
leaves the stored patch text unchanged and reports an error toast (suppressed
only when the caller asked for silence), never a success or an emptied
state. -/
theorem c8_failure_keeps_state_reports_error (st : JSValue) (url : List Char)
    (silent : Bool) (body : List Char) (parsed : List Char → Option JSValue) :
    syncFromCloud st (some url) silent FetchOutcome.fetchError parsed =
      (st, if silent then none else some ToastKind.error) ∧
    syncFromCloud st (some url) silent (FetchOutcome.response false body) parsed =
      (st, if silent then none else some ToastKind.error) :=
  ⟨rfl, rfl⟩

/-- C9 counterexample: the claim asserts idempotence whenever no newVal
contains any old as a substring; the single rule old `ab`, newVal `a`
satisfies that condition, yet on the text `abb` one application yields `ab`
and a second application changes it again to `a`. -/
theorem c9_idempotence_counterexample :
    isSubstr (strL "ab") (strL "a") = false ∧
    applyCustomPatches (applyCustomPatches (strL "abb") [⟨strL "ab", strL "a"⟩])
        [⟨strL "ab", strL "a"⟩] ≠
      applyCustomPatches (strL "abb") [⟨strL "ab", strL "a"⟩] :=
  ⟨by decide, by decide⟩

/-- C9 amended: apply is idempotent whenever no rule's old occurs as a
substring of the first application's output (the condition of the claim does
not guarantee this, since a replacement boundary can recreate an old). -/
theorem c9_idempotent_no_occurrence (text : List Char) (rules : List PatchRule)
    (h : ∀ r ∈ rules, isSubstr r.old (applyCustomPatches text rules) = false) :
    applyCustomPatches (applyCustomPatches text rules) rules =
      applyCustomPatches text rules :=
  applyCustomPatches_fixed _ rules h

/-- C9 witness: the amended statement on the text `a` with the single rule
old `a`, newVal `b`. -/
theorem c9_idempotent_no_occurrence_witness :
    applyCustomPatches (applyCustomPatches (strL "a") [⟨strL "a", strL "b"⟩])
        [⟨strL "a", strL "b"⟩] =
      applyCustomPatches (strL "a") [⟨strL "a", strL "b"⟩] :=
  c9_idempotent_no_occurrence (strL "a") [⟨strL "a", strL "b"⟩] (by decide)

/-- C10: each rule is applied in one global pass, so the self-referencing
rule old `a`, newVal `aa` maps `a` to `aa` (no re-triggering on inserted
text), and on every text the output stays bounded: its length is the input
length plus the number of occurrences of `a`. -/
theorem c10_single_pass_bounded :
    applyCustomPatches (strL "a") [⟨strL "a", strL "aa"⟩] = strL "aa" ∧
    ∀ text, (applyCustomPatches text [⟨strL "a", strL "aa"⟩]).length =
      text.length + text.count 'a' := by
  refine ⟨by decide, fun text => ?_⟩
  show (replaceScan (RAtom.lit 'a') [] (strL "aa") [] 0 text).length =
    text.length + text.count 'a'
  exact replaceScan_double_len text []
